import Mathlib

/-!
Shallow embedding of `onnxruntime/core/framework/inline_containers.h`.

`size_t` is modelled as `Nat` together with explicit `< 2^64` range checks.
`SafeInt<size_t>` arithmetic is modelled by checked operations returning
`Option Nat` (`none` models the ArithmeticOverflow exception).
-/

namespace Onnx

/-- Checked addition, models `SafeInt<size_t>` operator+. -/
def chkAdd (a b : Nat) : Option Nat :=
  if a + b < 2 ^ 64 then some (a + b) else none

/-- Checked subtraction, models `SafeInt<size_t>` operator- (underflow check). -/
def chkSub (a b : Nat) : Option Nat :=
  if b ≤ a then some (a - b) else none

/-- Checked multiplication, models `SafeInt<size_t>` operator*. -/
def chkMul (a b : Nat) : Option Nat :=
  if a * b < 2 ^ 64 then some (a * b) else none

/-- Bit length of a natural number computed with structural fuel
(enough fuel for any 64-bit value). -/
def bitlenAux : Nat → Nat → Nat
  | 0, _ => 0
  | fuel + 1, n => if n = 0 then 0 else bitlenAux fuel (n / 2) + 1

/-- Bit length of a 64-bit value. -/
def bitlen (n : Nat) : Nat := bitlenAux 64 n

/-- Models `absl::countl_zero` on a 64-bit `size_t` value. -/
def countl_zero (n : Nat) : Nat := 64 - bitlen n

/-- The `nelem` computation of `EstimateHashStorageSize`:
`num_elements ? ~size_t{} >> absl::countl_zero(num_elements) : 1`. -/
def hashCapacity (num_elements : Nat) : Nat :=
  if num_elements ≠ 0 then (2 ^ 64 - 1) >>> countl_zero num_elements else 1

/-- `constexpr size_t num_cloned_bytes = 15;` -/
def num_cloned_bytes : Nat := 15

/-- The `num_control_bytes` value: `nelem + 1 + num_cloned_bytes`. -/
def numControlBytes (num_elements : Nat) : Nat :=
  hashCapacity num_elements + 1 + num_cloned_bytes

/-- `~slot_size + 1` evaluated in (wrapping) `size_t` arithmetic. -/
def negMask (slot_size : Nat) : Nat := (2 ^ 64 - slot_size) % 2 ^ 64

/-- The `slot_offset` value computed inside `EstimateHashStorageSize`:
`(num_control_bytes + slot_size - 1) & (~slot_size + 1)`. -/
def slotOffset (slot_size num_elements : Nat) : Nat :=
  (numControlBytes num_elements + slot_size - 1) &&& negMask slot_size

/-- `EstimateHashStorageSize`, with every `SafeInt` operation overflow-checked;
`none` models the thrown overflow exception. -/
def EstimateHashStorageSize (slot_size num_elements : Nat) : Option Nat :=
  let nelem := hashCapacity num_elements
  (chkAdd nelem 1).bind fun a =>
    (chkAdd a num_cloned_bytes).bind fun ncb =>
      (chkAdd ncb slot_size).bind fun b =>
        (chkSub b 1).bind fun t =>
          (chkMul nelem slot_size).bind fun prod =>
            chkAdd (t &&& negMask slot_size) prod

/-- The exact (unbounded) mathematical value of the estimate. -/
def estimateExact (slot_size num_elements : Nat) : Nat :=
  slotOffset slot_size num_elements + hashCapacity num_elements * slot_size

/-- Smallest multiple of `s` that is `≥ c` (spec-side rounding definition,
used to compare against the code's masked `slot_offset`). -/
def roundUpToMultiple (s c : Nat) : Nat := ((c + s - 1) / s) * s

/-- `kOrtStackAllocationLimitBytes`: 4*1024 on platforms with a frame-local
allocation primitive (`_alloca` / `alloca`), 0 otherwise. -/
def kOrtStackAllocationLimitBytes (hasFrameAlloc : Bool) : Nat :=
  if hasFrameAlloc then 4 * 1024 else 0

/-- `IsSizeOverStackAllocationLimit`. -/
def IsSizeOverStackAllocationLimit (hasFrameAlloc : Bool) (size : Nat) : Bool :=
  size > kOrtStackAllocationLimitBytes hasFrameAlloc

/-- The two kinds of backing storage the buffer macro can choose. -/
inductive BufferPlacement
  | stack
  | heap
deriving DecidableEq

/-- Placement decision of `OrtDeclareAllignedStackOrAllocatedBuffer`:
`size_in_bytes > kOrtStackAllocationLimitBytes ? heap : ORT_ALLOCA`. -/
def ortDeclareStackOrAllocatedBuffer (hasFrameAlloc : Bool) (size_in_bytes : Nat) :
    BufferPlacement :=
  if size_in_bytes > kOrtStackAllocationLimitBytes hasFrameAlloc then .heap else .stack

/-- Modelled from the spec: `IAllocator::CalcMemSizeForArrayWithAlignment`
(declared in `core/framework/allocator.h`, which is not part of this fragment).
Computes `nmemb * size`, checked for overflow, then adds `alignment - 1`
extra bytes (checked); fails with `none` on overflow. -/
def CalcMemSizeForArrayWithAlignment (nmemb size alignment : Nat) : Option Nat :=
  (chkMul nmemb size).bind fun p => chkAdd p (alignment - 1)

/-- Models `std::align(alignment, size, ptr, space)`: the smallest
`alignment`-aligned address `≥ ptr` if `size` bytes still fit in `space`. -/
def stdAlign (alignment size ptr space : Nat) : Option Nat :=
  let adj := (alignment - ptr % alignment) % alignment
  if adj + size ≤ space then some (ptr + adj) else none

/-- `allocate_and_align`; the allocator is a function from the allocation size
to the raw pointer it returns.  The `Bool` component records whether the
allocator was invoked at all. -/
def allocate_and_align (alloc : Nat → Nat) (size alignment : Nat) :
    Option Nat × Bool :=
  match CalcMemSizeForArrayWithAlignment size 1 alignment with
  | none => (none, false)
  | some to_allocate =>
    (stdAlign alignment to_allocate (alloc to_allocate) to_allocate, true)

/-- Observable state of a `DebugMemoryResource`: its name, the two `size_t`
counters (values below `2^64`; the update operations reduce modulo `2^64`
exactly as the C++ `size_t` `+=` does) and the stream of diagnostic records
written to `std::cout`. -/
structure DebugMemoryResource where
  name : String
  total_allocated : Nat
  total_deallocated : Nat
  log : List (String × String × Nat)

/-- `DebugMemoryResource::do_allocate`; the upstream resource is a function
returning the pointer, or `none` when the upstream call throws.  The counter
update `total_allocated_ += bytes` is `size_t` arithmetic, i.e. it wraps
modulo `2^64`. -/
def do_allocate (upstream : Nat → Nat → Option Nat) (r : DebugMemoryResource)
    (bytes align : Nat) : DebugMemoryResource × Option Nat :=
  ({ r with
      log := r.log ++ [(r.name, "allocate", bytes)],
      total_allocated := (r.total_allocated + bytes) % 2 ^ 64 },
    upstream bytes align)

/-- `DebugMemoryResource::do_deallocate`; the counter update wraps modulo
`2^64` like the `size_t` `+=` in the source. -/
def do_deallocate (upstream : Nat → Nat → Nat → Option Unit)
    (r : DebugMemoryResource) (ptr bytes align : Nat) :
    DebugMemoryResource × Option Unit :=
  ({ r with
      log := r.log ++ [(r.name, "deallocate", bytes)],
      total_deallocated := (r.total_deallocated + bytes) % 2 ^ 64 },
    upstream ptr bytes align)

/-- `DebugMemoryResource::do_is_equal` — unconditionally `false`. -/
def do_is_equal (_r _other : DebugMemoryResource) : Bool := false

/-- One call made on a `DebugMemoryResource`. -/
inductive MemOp
  | alloc (bytes align : Nat)
  | dealloc (ptr bytes align : Nat)

/-- Run a sequence of calls against a `DebugMemoryResource`, threading the
observable state. -/
def runOps (ua : Nat → Nat → Option Nat) (ud : Nat → Nat → Nat → Option Unit) :
    DebugMemoryResource → List MemOp → DebugMemoryResource
  | r, [] => r
  | r, MemOp.alloc b a :: rest => runOps ua ud (do_allocate ua r b a).1 rest
  | r, MemOp.dealloc p b a :: rest => runOps ua ud (do_deallocate ud r p b a).1 rest

/-- Bytes requested by an op when it is an allocation. -/
def allocBytes : MemOp → Nat
  | MemOp.alloc b _ => b
  | MemOp.dealloc _ _ _ => 0

/-- Bytes passed by an op when it is a deallocation. -/
def deallocBytes : MemOp → Nat
  | MemOp.alloc _ _ => 0
  | MemOp.dealloc _ b _ => b

theorem bitlenAux_lt : ∀ (fuel n : Nat), n < 2 ^ fuel → n < 2 ^ bitlenAux fuel n := by
  intro fuel
  induction fuel with
  | zero => intro n h; simpa [bitlenAux] using h
  | succ fuel ih =>
    intro n h
    by_cases hn : n = 0
    · subst hn; simp [bitlenAux]
    · simp only [bitlenAux, if_neg hn]
      have hpow : 2 ^ (fuel + 1) = 2 * 2 ^ fuel := by ring
      have h2 : n / 2 < 2 ^ fuel := by omega
      have hrec := ih (n / 2) h2
      rw [pow_succ]
      omega

theorem bitlenAux_le : ∀ (fuel n k : Nat), n < 2 ^ k → bitlenAux fuel n ≤ k := by
  intro fuel
  induction fuel with
  | zero => intro n k _; simp [bitlenAux]
  | succ fuel ih =>
    intro n k h
    by_cases hn : n = 0
    · simp [bitlenAux, hn]
    · simp only [bitlenAux, if_neg hn]
      have hk : k ≠ 0 := by
        rintro rfl
        simp only [pow_zero] at h
        omega
      have hpow : 2 ^ k = 2 * 2 ^ (k - 1) := by
        cases k with
        | zero => omega
        | succ k => rw [Nat.succ_sub_one, pow_succ]; ring
      have h2 : n / 2 < 2 ^ (k - 1) := by omega
      have := ih (n / 2) (k - 1) h2
      omega

theorem bitlenAux_pos {fuel n : Nat} (hn : n ≠ 0) : 1 ≤ bitlenAux (fuel + 1) n := by
  simp only [bitlenAux, if_neg hn]
  omega

theorem bitlen_pos {n : Nat} (hn : n ≠ 0) : 1 ≤ bitlen n :=
  bitlenAux_pos hn

theorem two_pow_sub_one_shiftRight {j : Nat} (hj : j ≤ 64) :
    (2 ^ 64 - 1) >>> j = 2 ^ (64 - j) - 1 := by
  rw [Nat.shiftRight_eq_div_pow]
  have h1 : 2 ^ j * 2 ^ (64 - j) = 2 ^ 64 := by
    rw [← pow_add]
    congr 1
    omega
  have h2 : 1 ≤ 2 ^ (64 - j) := Nat.one_le_two_pow
  have h3 : 1 ≤ 2 ^ j := Nat.one_le_two_pow
  obtain ⟨B, hB⟩ : ∃ B, 2 ^ (64 - j) = B + 1 := ⟨2 ^ (64 - j) - 1, by omega⟩
  rw [hB] at h1
  have hmul : 2 ^ j * (B + 1) = 2 ^ j * B + 2 ^ j := by ring
  have hdecomp : 2 ^ 64 - 1 = 2 ^ j * B + (2 ^ j - 1) := by omega
  rw [hdecomp, Nat.mul_add_div (by omega), Nat.div_eq_of_lt (by omega)]
  omega

theorem hashCapacity_eq {n : Nat} (hn : n ≠ 0) (h64 : n < 2 ^ 64) :
    hashCapacity n = 2 ^ bitlen n - 1 := by
  have hble : bitlen n ≤ 64 := bitlenAux_le 64 n 64 h64
  rw [hashCapacity, if_pos hn, countl_zero, two_pow_sub_one_shiftRight (by omega)]
  have hsub : 64 - (64 - bitlen n) = bitlen n := by omega
  rw [hsub]

theorem hashCapacity_pos (n : Nat) : 1 ≤ hashCapacity n := by
  by_cases hn : n = 0
  · simp [hashCapacity, hn]
  · rw [hashCapacity, if_pos hn, countl_zero, Nat.shiftRight_eq_div_pow]
    have h1 := bitlen_pos hn
    have h2 : 2 ^ (64 - bitlen n) ≤ 2 ^ 63 := Nat.pow_le_pow_right (by norm_num) (by omega)
    rw [Nat.le_div_iff_mul_le (Nat.pos_pow_of_pos _ (by norm_num))]
    have : (2 : Nat) ^ 63 ≤ 2 ^ 64 - 1 := by norm_num
    omega

theorem hashCapacity_ge {n : Nat} (h64 : n < 2 ^ 64) : n ≤ hashCapacity n := by
  by_cases hn : n = 0
  · subst hn; simp [hashCapacity]
  · rw [hashCapacity_eq hn h64]
    have hlt : n < 2 ^ bitlen n := bitlenAux_lt 64 n h64
    omega

theorem hashCapacity_le_of {n k : Nat} (hn : n ≠ 0) (h64 : n < 2 ^ 64)
    (h : n ≤ 2 ^ k - 1) : hashCapacity n ≤ 2 ^ k - 1 := by
  rw [hashCapacity_eq hn h64]
  have hk : 1 ≤ 2 ^ k := Nat.one_le_two_pow
  have hlt : n < 2 ^ k := by omega
  have hle : bitlen n ≤ k := bitlenAux_le 64 n k hlt
  have := Nat.pow_le_pow_right (show 1 ≤ 2 by norm_num) hle
  omega

theorem hashCapacity_mono {n1 n2 : Nat} (h : n1 ≤ n2) (h64 : n2 < 2 ^ 64) :
    hashCapacity n1 ≤ hashCapacity n2 := by
  by_cases h1 : n1 = 0
  · subst h1
    have hpos := hashCapacity_pos n2
    have h0 : hashCapacity 0 = 1 := by decide
    omega
  · have h2 : n2 ≠ 0 := by omega
    rw [hashCapacity_eq h1 (by omega), hashCapacity_eq h2 h64]
    have hlt : n1 < 2 ^ bitlen n2 := lt_of_le_of_lt h (bitlenAux_lt 64 n2 h64)
    have hle : bitlen n1 ≤ bitlen n2 := bitlenAux_le 64 n1 _ hlt
    have := Nat.pow_le_pow_right (show 1 ≤ 2 by norm_num) hle
    omega

theorem hashCapacity_pow (n : Nat) : ∃ k, hashCapacity n = 2 ^ k - 1 := by
  by_cases hn : n = 0
  · exact ⟨1, by simp [hashCapacity, hn]⟩
  · refine ⟨64 - (64 - bitlen n), ?_⟩
    rw [hashCapacity, if_pos hn, countl_zero, two_pow_sub_one_shiftRight (by omega)]

theorem negMask_eq {s : Nat} (h0 : 0 < s) (h64 : s ≤ 2 ^ 64) :
    negMask s = 2 ^ 64 - s :=
  Nat.mod_eq_of_lt (by omega)

theorem testBit_negMask {s : Nat} (h0 : 0 < s) (h64 : s ≤ 2 ^ 64) (i : Nat) :
    (negMask s).testBit i = (decide (i < 64) && ! (s - 1).testBit i) := by
  rw [negMask_eq h0 h64]
  have hs : s - 1 < 2 ^ 64 := by omega
  have hrw : 2 ^ 64 - s = 2 ^ 64 - ((s - 1) + 1) := by omega
  rw [hrw, Nat.testBit_two_pow_sub_succ hs]

theorem add_eq_lor_of_land_eq_zero : ∀ a b : Nat, a &&& b = 0 → a + b = a ||| b := by
  intro a
  induction a using Nat.binaryRec with
  | z => intro b _; simp
  | f ba a ih =>
    intro b hb
    induction b using Nat.bitCasesOn with
    | h bb c =>
      rw [Nat.land_bit, Nat.bit_eq_zero_iff] at hb
      obtain ⟨h1, h2⟩ := hb
      have h3 := ih c h1
      rw [Nat.lor_bit, Nat.bit_val, Nat.bit_val, Nat.bit_val, ← h3]
      cases ba <;> cases bb <;> simp at h2 ⊢ <;> omega

theorem land_negMask_add_land {x s : Nat} (hx : x < 2 ^ 64) (h0 : 0 < s)
    (h64 : s ≤ 2 ^ 64) : (x &&& negMask s) + (x &&& (s - 1)) = x := by
  have hdisj : (x &&& negMask s) &&& (x &&& (s - 1)) = 0 := by
    apply Nat.eq_of_testBit_eq
    intro i
    simp only [Nat.testBit_and, Nat.zero_testBit]
    rw [testBit_negMask h0 h64]
    cases h : (s - 1).testBit i <;> simp [h]
  rw [add_eq_lor_of_land_eq_zero _ _ hdisj, ← Nat.and_or_distrib_left]
  have hmask : negMask s ||| (s - 1) = 2 ^ 64 - 1 := by
    apply Nat.eq_of_testBit_eq
    intro i
    rw [Nat.testBit_or, testBit_negMask h0 h64, Nat.testBit_two_pow_sub_one]
    by_cases hi : i < 64
    · cases h : (s - 1).testBit i <;> simp [h, hi]
    · have hout : (s - 1).testBit i = false := by
        apply Nat.testBit_lt_two_pow
        have : (2 : Nat) ^ 64 ≤ 2 ^ i := Nat.pow_le_pow_right (by norm_num) (by omega)
        omega
      simp [hi, hout]
  rw [hmask, Nat.and_pow_two_sub_one_eq_mod, Nat.mod_eq_of_lt hx]

theorem land_negMask_ge {x s : Nat} (hx : x < 2 ^ 64) (h0 : 0 < s)
    (h64 : s ≤ 2 ^ 64) : x - (s - 1) ≤ x &&& negMask s := by
  have hp := land_negMask_add_land hx h0 h64
  have hle : x &&& (s - 1) ≤ s - 1 := Nat.and_le_right
  omega

theorem land_negMask_pow {x k : Nat} (hx : x < 2 ^ 64) (hk : k ≤ 64) :
    x &&& negMask (2 ^ k) = 2 ^ k * (x / 2 ^ k) := by
  have h0 : 0 < 2 ^ k := Nat.pos_pow_of_pos _ (by norm_num)
  have h64 : 2 ^ k ≤ 2 ^ 64 := Nat.pow_le_pow_right (by norm_num) hk
  have hp := land_negMask_add_land hx h0 h64
  rw [Nat.and_pow_two_sub_one_eq_mod] at hp
  have hdm := Nat.div_add_mod x (2 ^ k)
  omega

theorem le_roundUpToMultiple {s c : Nat} (hs : 0 < s) : c ≤ roundUpToMultiple s c := by
  rw [roundUpToMultiple]
  rcases Nat.eq_zero_or_pos c with rfl | hc
  · simp
  · have h1 : c + s - 1 = (c - 1) + s := by omega
    rw [h1, Nat.add_div_right _ hs, Nat.add_mul, one_mul]
    have h2 := Nat.div_add_mod (c - 1) s
    have h3 := Nat.mod_lt (c - 1) hs
    have h4 : (c - 1) / s * s = s * ((c - 1) / s) := Nat.mul_comm _ _
    omega

theorem roundUpToMultiple_dvd (s c : Nat) : s ∣ roundUpToMultiple s c :=
  Dvd.intro_left _ rfl

theorem roundUpToMultiple_le {s c m : Nat} (hs : 0 < s) (hdvd : s ∣ m)
    (hcm : c ≤ m) : roundUpToMultiple s c ≤ m := by
  obtain ⟨t, rfl⟩ := hdvd
  rw [roundUpToMultiple]
  rcases Nat.eq_zero_or_pos c with rfl | hc
  · rw [Nat.zero_add, Nat.div_eq_of_lt (by omega)]
    simp
  · have h1 : c + s - 1 = (c - 1) + s := by omega
    rw [h1, Nat.add_div_right _ hs]
    have h2 : (c - 1) / s < t := by
      rw [Nat.div_lt_iff_lt_mul hs]
      have hst : s * t = t * s := Nat.mul_comm s t
      omega
    calc ((c - 1) / s + 1) * s ≤ t * s := Nat.mul_le_mul_right s h2
      _ = s * t := Nat.mul_comm _ _

theorem chkAdd_eq_some {a b v : Nat} : chkAdd a b = some v ↔ a + b < 2 ^ 64 ∧ v = a + b := by
  unfold chkAdd
  split_ifs with h <;> simp [h, eq_comm] <;> omega

theorem chkSub_eq_some {a b v : Nat} : chkSub a b = some v ↔ b ≤ a ∧ v = a - b := by
  unfold chkSub
  split_ifs with h <;> simp [h, eq_comm]

theorem chkMul_eq_some {a b v : Nat} : chkMul a b = some v ↔ a * b < 2 ^ 64 ∧ v = a * b := by
  unfold chkMul
  split_ifs with h <;> simp [h, eq_comm] <;> omega

theorem numControlBytes_eq (n : Nat) : numControlBytes n = hashCapacity n + 16 := by
  simp only [numControlBytes, num_cloned_bytes]

theorem numControlBytes_ge (n : Nat) : 17 ≤ numControlBytes n := by
  have := hashCapacity_pos n
  have := numControlBytes_eq n
  omega

theorem estimate_eq_some {s n v : Nat} (h : EstimateHashStorageSize s n = some v) :
    v = estimateExact s n ∧ numControlBytes n + s - 1 < 2 ^ 64 ∧
      hashCapacity n * s < 2 ^ 64 := by
  simp only [EstimateHashStorageSize, Option.bind_eq_some, chkAdd_eq_some,
    chkSub_eq_some, chkMul_eq_some] at h
  obtain ⟨a, ⟨ha1, ha2⟩, b, ⟨hb1, hb2⟩, c, ⟨hc1, hc2⟩, t, ⟨ht1, ht2⟩,
    p, ⟨hp1, hp2⟩, hv1, hv2⟩ := h
  subst ha2 hb2 hc2 ht2 hp2 hv2
  have hncb : numControlBytes n = hashCapacity n + 1 + num_cloned_bytes := rfl
  exact ⟨rfl, by omega, hp1⟩

theorem estimateExact_congr {s n1 n2 : Nat} (h : hashCapacity n1 = hashCapacity n2) :
    estimateExact s n1 = estimateExact s n2 := by
  simp only [estimateExact, slotOffset, numControlBytes, h]

theorem runOps_allocated (ua : Nat → Nat → Option Nat)
    (ud : Nat → Nat → Nat → Option Unit) :
    ∀ (ops : List MemOp) (r : DebugMemoryResource),
      r.total_allocated < 2 ^ 64 →
      (runOps ua ud r ops).total_allocated
        = (r.total_allocated + (ops.map allocBytes).sum) % 2 ^ 64 := by
  intro ops
  induction ops with
  | nil =>
    intro r ht
    simp only [runOps, List.map_nil, List.sum_nil]
    omega
  | cons op rest ih =>
    intro r ht
    cases op with
    | alloc b a =>
      simp only [runOps, List.map_cons, List.sum_cons, allocBytes]
      rw [ih _ (by simp only [do_allocate]; exact Nat.mod_lt _ (by norm_num))]
      simp only [do_allocate]
      rw [Nat.mod_add_mod, Nat.add_assoc]
    | dealloc p b a =>
      simp only [runOps, List.map_cons, List.sum_cons, allocBytes]
      rw [ih _ (by simp only [do_deallocate]; exact ht)]
      simp only [do_deallocate]
      omega

theorem runOps_deallocated (ua : Nat → Nat → Option Nat)
    (ud : Nat → Nat → Nat → Option Unit) :
    ∀ (ops : List MemOp) (r : DebugMemoryResource),
      r.total_deallocated < 2 ^ 64 →
      (runOps ua ud r ops).total_deallocated
        = (r.total_deallocated + (ops.map deallocBytes).sum) % 2 ^ 64 := by
  intro ops
  induction ops with
  | nil =>
    intro r ht
    simp only [runOps, List.map_nil, List.sum_nil]
    omega
  | cons op rest ih =>
    intro r ht
    cases op with
    | alloc b a =>
      simp only [runOps, List.map_cons, List.sum_cons, deallocBytes]
      rw [ih _ (by simp only [do_allocate]; exact ht)]
      simp only [do_allocate]
      omega
    | dealloc p b a =>
      simp only [runOps, List.map_cons, List.sum_cons, deallocBytes]
      rw [ih _ (by simp only [do_deallocate]; exact Nat.mod_lt _ (by norm_num))]
      simp only [do_deallocate]
      rw [Nat.mod_add_mod, Nat.add_assoc]

/-- C1: `EstimateHashStorageSize(8, 1)` returns exactly 32 bytes and
`EstimateHashStorageSize(16, 5)` returns exactly 144 bytes, with the
intermediate values the claim names (capacity 7, control bytes 23,
aligned slot offset 32). -/
theorem estimate_concrete_cases :
    EstimateHashStorageSize 8 1 = some 32 ∧
    EstimateHashStorageSize 16 5 = some 144 ∧
    hashCapacity 5 = 7 ∧ numControlBytes 5 = 23 ∧ slotOffset 16 5 = 32 := by
  refine ⟨by decide, by decide, by decide, by decide, by decide⟩

/-- C2: for every `element_count ≥ 1` (below `2^64`), the capacity used inside
`EstimateHashStorageSize` is the least value of the form `2^k - 1` that is
`≥ element_count`; for `element_count = 0` the capacity is `1`; and for every
`slot_size > 0`, `estimate(slot_size, 0) = estimate(slot_size, 1)`. -/
theorem capacity_least_and_zero_eq_one :
    (∀ n : Nat, 1 ≤ n → n < 2 ^ 64 →
      IsLeast {m | (∃ k, m = 2 ^ k - 1) ∧ n ≤ m} (hashCapacity n)) ∧
    hashCapacity 0 = 1 ∧
    (∀ s : Nat, 0 < s → EstimateHashStorageSize s 0 = EstimateHashStorageSize s 1) := by
  refine ⟨fun n h1 h64 => ⟨⟨hashCapacity_pow n, hashCapacity_ge h64⟩, ?_⟩,
    by decide, fun s _ => ?_⟩
  · rintro m ⟨⟨k, rfl⟩, hnm⟩
    exact hashCapacity_le_of (by omega) h64 hnm
  · have h01 : hashCapacity 0 = hashCapacity 1 := by decide
    unfold EstimateHashStorageSize
    rw [h01]

/-- C2 witness: instantiated at `n = 5` and `slot_size = 8`. -/
theorem capacity_least_and_zero_eq_one_witness :
    IsLeast {m | (∃ k, m = 2 ^ k - 1) ∧ 5 ≤ m} (hashCapacity 5) ∧
    EstimateHashStorageSize 8 0 = EstimateHashStorageSize 8 1 :=
  ⟨capacity_least_and_zero_eq_one.1 5 (by decide) (by decide),
    capacity_least_and_zero_eq_one.2.2 8 (by decide)⟩

/-- C3 counterexample: for `slot_size = 12` (not a power of two) and
`element_count = 1`, the slot offset computed inside `EstimateHashStorageSize`
is 20, which is not a multiple of 12 at all — while the smallest multiple of 12
that is `≥ numControlBytes 1 = 17` is 24.  So the claimed rounding property is
false for general `slot_size > 0`. -/
theorem slotOffset_not_rounded_counterexample :
    slotOffset 12 1 = 20 ∧ ¬ 12 ∣ slotOffset 12 1 ∧
      roundUpToMultiple 12 (numControlBytes 1) = 24 := by
  refine ⟨by decide, by decide, by decide⟩

/-- C3 (amended): for every power-of-two `slot_size = 2^k` (`k ≤ 63`) and every
`element_count` for which the control-byte computation does not overflow, the
slot-array offset computed inside `EstimateHashStorageSize` equals the
control-byte count rounded up to the next multiple of `slot_size`, i.e. it is
the least multiple of `slot_size` that is `≥` the control-byte count. -/
theorem slotOffset_rounds_up_for_pow_two :
    ∀ k n : Nat, k ≤ 63 → numControlBytes n + 2 ^ k - 1 < 2 ^ 64 →
      slotOffset (2 ^ k) n = roundUpToMultiple (2 ^ k) (numControlBytes n) ∧
      IsLeast {m | 2 ^ k ∣ m ∧ numControlBytes n ≤ m} (slotOffset (2 ^ k) n) := by
  intro k n hk hov
  have hs : 0 < 2 ^ k := Nat.pos_pow_of_pos _ (by norm_num)
  have heq : slotOffset (2 ^ k) n = roundUpToMultiple (2 ^ k) (numControlBytes n) := by
    rw [slotOffset, land_negMask_pow hov (by omega), roundUpToMultiple,
      Nat.mul_comm]
  refine ⟨heq, ⟨?_, ?_⟩⟩
  · rw [heq]
    exact ⟨roundUpToMultiple_dvd _ _, le_roundUpToMultiple hs⟩
  · rintro m ⟨hdvd, hle⟩
    rw [heq]
    exact roundUpToMultiple_le hs hdvd hle

/-- C3 witness for the amended theorem: `slot_size = 2^3 = 8`,
`element_count = 1`. -/
theorem slotOffset_rounds_up_for_pow_two_witness :
    slotOffset (2 ^ 3) 1 = roundUpToMultiple (2 ^ 3) (numControlBytes 1) ∧
    IsLeast {m | 2 ^ 3 ∣ m ∧ numControlBytes 1 ≤ m} (slotOffset (2 ^ 3) 1) :=
  slotOffset_rounds_up_for_pow_two 3 1 (by decide) (by decide)

/-- C4: for fixed `slot_size > 0` and `n1 ≤ n2` (both valid `size_t` values)
such that neither computation overflows, the estimate is monotone. -/
theorem estimate_monotone :
    ∀ s n1 n2 v1 v2 : Nat, 0 < s → n1 ≤ n2 → n2 < 2 ^ 64 →
      EstimateHashStorageSize s n1 = some v1 →
      EstimateHashStorageSize s n2 = some v2 → v1 ≤ v2 := by
  intro s n1 n2 v1 v2 hs hle h64 h1 h2
  obtain ⟨hv1, ht1, _⟩ := estimate_eq_some h1
  obtain ⟨hv2, ht2, _⟩ := estimate_eq_some h2
  subst hv1 hv2
  have hcap : hashCapacity n1 ≤ hashCapacity n2 := hashCapacity_mono hle h64
  rcases eq_or_lt_of_le hcap with heq | hlt
  · exact le_of_eq (estimateExact_congr heq)
  · have hs64 : s ≤ 2 ^ 64 := by
      have := numControlBytes_ge n2
      omega
    have hoff1 : slotOffset s n1 ≤ numControlBytes n1 + s - 1 := Nat.and_le_left
    have hoff2 : numControlBytes n2 + s - 1 - (s - 1) ≤ slotOffset s n2 :=
      land_negMask_ge ht2 hs hs64
    have hncb1 := numControlBytes_eq n1
    have hncb2 := numControlBytes_eq n2
    have hmul : hashCapacity n1 * s + s ≤ hashCapacity n2 * s := by
      have hstep : (hashCapacity n1 + 1) * s ≤ hashCapacity n2 * s :=
        Nat.mul_le_mul_right s (by omega)
      rw [Nat.add_mul, one_mul] at hstep
      exact hstep
    unfold estimateExact
    omega

/-- C4 witness: `slot_size = 8`, `n1 = 1` (estimate 32), `n2 = 5`
(estimate 80). -/
theorem estimate_monotone_witness : (32 : Nat) ≤ 80 :=
  estimate_monotone 8 1 5 32 80 (by decide) (by decide) (by decide)
    (by decide) (by decide)

/-- C5: whenever `EstimateHashStorageSize` returns a value, that value is at
least `element_count * slot_size`: the estimate never underestimates the raw
slot storage. -/
theorem estimate_never_underestimates :
    ∀ s n v : Nat, 0 < s → n < 2 ^ 64 →
      EstimateHashStorageSize s n = some v → n * s ≤ v := by
  intro s n v _ h64 h
  obtain ⟨hv, _, _⟩ := estimate_eq_some h
  subst hv
  have hcap := hashCapacity_ge h64
  have hmul : n * s ≤ hashCapacity n * s := Nat.mul_le_mul_right s hcap
  unfold estimateExact
  omega

/-- C5 witness: `slot_size = 16`, `element_count = 5`, estimate 144 ≥ 80. -/
theorem estimate_never_underestimates_witness : (5 * 16 : Nat) ≤ 144 :=
  estimate_never_underestimates 16 5 144 (by decide) (by decide) (by decide)

/-- C6: overflow fails closed.  (a) whenever the checked computation returns a
value it is the exact mathematical estimate — never a wrapped or truncated
value; (b) on an input whose intermediate arithmetic exceeds the `size_t`
range the checked computation signals overflow (`none`) instead of returning;
(c) when the aligned-size computation overflows, `allocate_and_align` returns
failure (`none`) and never invokes the allocator. -/
theorem overflow_fails_closed :
    (∀ s n v : Nat, EstimateHashStorageSize s n = some v → v = estimateExact s n) ∧
    EstimateHashStorageSize 8 (2 ^ 63) = none ∧
    (∀ (alloc : Nat → Nat) (size alignment : Nat),
      CalcMemSizeForArrayWithAlignment size 1 alignment = none →
      allocate_and_align alloc size alignment = (none, false)) := by
  refine ⟨fun s n v h => (estimate_eq_some h).1, by decide,
    fun alloc size alignment h => ?_⟩
  simp [allocate_and_align, h]

/-- C6 witness: the checked estimate at `(8, 1)` equals the exact value, and
`allocate_and_align` with `size = 2^64 - 1`, `alignment = 64` fails without
allocating. -/
theorem overflow_fails_closed_witness :
    (32 : Nat) = estimateExact 8 1 ∧
    allocate_and_align (fun x => x) (2 ^ 64 - 1) 64 = (none, false) :=
  ⟨overflow_fails_closed.1 8 1 32 (by decide),
    overflow_fails_closed.2.2 (fun x => x) (2 ^ 64 - 1) 64 (by decide)⟩

/-- C7: the stack-or-heap decision uses the fixed threshold
`kOrtStackAllocationLimitBytes` (4096 with a frame-local allocation primitive,
0 without): sizes `≤ threshold` go to the stack side, sizes `> threshold` go
to the heap side, and the boundary values land accordingly. -/
theorem stack_or_heap_threshold :
    ∀ (p : Bool) (size : Nat),
      (kOrtStackAllocationLimitBytes true = 4096 ∧
        kOrtStackAllocationLimitBytes false = 0) ∧
      (size ≤ kOrtStackAllocationLimitBytes p →
        ortDeclareStackOrAllocatedBuffer p size = BufferPlacement.stack) ∧
      (kOrtStackAllocationLimitBytes p < size →
        ortDeclareStackOrAllocatedBuffer p size = BufferPlacement.heap) ∧
      ortDeclareStackOrAllocatedBuffer p (kOrtStackAllocationLimitBytes p)
        = BufferPlacement.stack ∧
      ortDeclareStackOrAllocatedBuffer p (kOrtStackAllocationLimitBytes p + 1)
        = BufferPlacement.heap := by
  intro p size
  refine ⟨⟨rfl, rfl⟩, fun h => ?_, fun h => ?_, ?_, ?_⟩
  · unfold ortDeclareStackOrAllocatedBuffer
    rw [if_neg (by omega)]
  · unfold ortDeclareStackOrAllocatedBuffer
    rw [if_pos (by omega)]
  · unfold ortDeclareStackOrAllocatedBuffer
    rw [if_neg (by omega)]
  · unfold ortDeclareStackOrAllocatedBuffer
    rw [if_pos (by omega)]

/-- C7 witness: boundary values on both platform configurations. -/
theorem stack_or_heap_threshold_witness :
    ortDeclareStackOrAllocatedBuffer true 4096 = BufferPlacement.stack ∧
    ortDeclareStackOrAllocatedBuffer true 4097 = BufferPlacement.heap ∧
    ortDeclareStackOrAllocatedBuffer false 1 = BufferPlacement.heap :=
  ⟨(stack_or_heap_threshold true 4096).2.1 (by decide),
    (stack_or_heap_threshold true 4097).2.2.1 (by decide),
    (stack_or_heap_threshold false 1).2.2.1 (by decide)⟩

/-- C8 counterexample: the counters are `size_t` and `+=` wraps modulo
`2^64`; wrapping is reachable because failed huge requests are counted before
the upstream call.  After two allocate calls of `2^63` bytes each (upstream
failing), `total_allocated` is `0`, not the exact sum `2^64` of the requested
sizes — so "total_allocated equals the exact sum of the byte sizes passed to
allocate" is false for this sequence. -/
theorem debug_resource_counters_wrap_counterexample :
    (runOps (fun _ _ => none) (fun _ _ _ => none) ⟨"r", 0, 0, []⟩
        [MemOp.alloc (2 ^ 63) 8, MemOp.alloc (2 ^ 63) 8]).total_allocated
      ≠ ([MemOp.alloc (2 ^ 63) 8, MemOp.alloc (2 ^ 63) 8].map allocBytes).sum := by
  decide

/-- C8 (amended): over any sequence of calls, `total_allocated` equals the sum
of the byte sizes passed to `allocate` reduced modulo `2^64` (the `size_t`
wrap), and likewise `total_deallocated` for `deallocate` — in particular the
counters equal the exact sums whenever those sums stay below `2^64`; the
requested sizes are counted, not rounded or padded ones, regardless of how
each request is serviced; and the pointer returned by `allocate` is exactly
the upstream resource's pointer, so the counters never influence allocation
outcomes. -/
theorem debug_resource_counters_mod_exact :
    ∀ (ua : Nat → Nat → Option Nat) (ud : Nat → Nat → Nat → Option Unit)
      (r : DebugMemoryResource) (ops : List MemOp),
      r.total_allocated < 2 ^ 64 → r.total_deallocated < 2 ^ 64 →
      (runOps ua ud r ops).total_allocated
        = (r.total_allocated + (ops.map allocBytes).sum) % 2 ^ 64 ∧
      (runOps ua ud r ops).total_deallocated
        = (r.total_deallocated + (ops.map deallocBytes).sum) % 2 ^ 64 ∧
      (r.total_allocated + (ops.map allocBytes).sum < 2 ^ 64 →
        (runOps ua ud r ops).total_allocated
          = r.total_allocated + (ops.map allocBytes).sum) ∧
      (r.total_deallocated + (ops.map deallocBytes).sum < 2 ^ 64 →
        (runOps ua ud r ops).total_deallocated
          = r.total_deallocated + (ops.map deallocBytes).sum) ∧
      (∀ bytes align, (do_allocate ua r bytes align).2 = ua bytes align) := by
  intro ua ud r ops ha hd
  refine ⟨runOps_allocated ua ud ops r ha, runOps_deallocated ua ud ops r hd,
    fun hlt => ?_, fun hlt => ?_, fun _ _ => rfl⟩
  · rw [runOps_allocated ua ud ops r ha, Nat.mod_eq_of_lt hlt]
  · rw [runOps_deallocated ua ud ops r hd, Nat.mod_eq_of_lt hlt]

/-- C8 witness: a concrete non-wrapping sequence where the counters are the
exact sums of the requested sizes. -/
theorem debug_resource_counters_mod_exact_witness :
    (runOps (fun _ _ => some 100) (fun _ _ _ => some ()) ⟨"arena", 0, 0, []⟩
        [MemOp.alloc 5 8, MemOp.dealloc 100 3 8]).total_allocated
      = 0 + ([MemOp.alloc 5 8, MemOp.dealloc 100 3 8].map allocBytes).sum :=
  (debug_resource_counters_mod_exact (fun _ _ => some 100) (fun _ _ _ => some ())
    ⟨"arena", 0, 0, []⟩ [MemOp.alloc 5 8, MemOp.dealloc 100 3 8]
    (by decide) (by decide)).2.2.1 (by decide)

/-- C9: `do_is_equal` reports "not equal" for every argument, including a
resource compared with itself. -/
theorem do_is_equal_always_false :
    ∀ r other : DebugMemoryResource,
      do_is_equal r other = false ∧ do_is_equal r r = false :=
  fun _ _ => ⟨rfl, rfl⟩

/-- C10: when the upstream call fails, the counter has already been
incremented by the requested byte count (the `size_t` increment, i.e. modulo
`2^64`) and the diagnostic record has already been emitted — the counters
also count failed requests and are never rolled back. -/
theorem counters_not_rolled_back_on_failure :
    ∀ (ua : Nat → Nat → Option Nat) (ud : Nat → Nat → Nat → Option Unit)
      (r : DebugMemoryResource) (ptr bytes align : Nat),
      (ua bytes align = none →
        (do_allocate ua r bytes align).2 = none ∧
        (do_allocate ua r bytes align).1.total_allocated
          = (r.total_allocated + bytes) % 2 ^ 64 ∧
        (do_allocate ua r bytes align).1.log
          = r.log ++ [(r.name, "allocate", bytes)]) ∧
      (ud ptr bytes align = none →
        (do_deallocate ud r ptr bytes align).2 = none ∧
        (do_deallocate ud r ptr bytes align).1.total_deallocated
          = (r.total_deallocated + bytes) % 2 ^ 64 ∧
        (do_deallocate ud r ptr bytes align).1.log
          = r.log ++ [(r.name, "deallocate", bytes)]) :=
  fun _ _ _ _ _ _ => ⟨fun h => ⟨h, rfl, rfl⟩, fun h => ⟨h, rfl, rfl⟩⟩

/-- C10 witness: a concrete resource with an upstream that always fails. -/
theorem counters_not_rolled_back_on_failure_witness :
    (do_allocate (fun _ _ => none) ⟨"arena", 0, 0, []⟩ 5 8).2 = none ∧
    (do_allocate (fun _ _ => none) ⟨"arena", 0, 0, []⟩ 5 8).1.total_allocated
      = (0 + 5) % 2 ^ 64 ∧
    (do_allocate (fun _ _ => none) ⟨"arena", 0, 0, []⟩ 5 8).1.log
      = [] ++ [("arena", "allocate", 5)] :=
  (counters_not_rolled_back_on_failure (fun _ _ => none) (fun _ _ _ => none)
    ⟨"arena", 0, 0, []⟩ 0 5 8).1 rfl

end Onnx
